import Mathlib

/-!
Verification of the canvas state engine of the App-Flow-Visualizer repository
(`src/App.tsx`), as described by its specification.

The TypeScript source is embedded shallowly:

* records (`NodeData`, `EdgeData`, …) become Lean structures with the same
  fields; optional fields (`parentId?`, `condition?`, …) become `Option`;
* JavaScript numbers become exact rationals (`Rat`); the engine performs only
  field arithmetic (add/sub/mul/div, min/max, comparisons) on them, so `Rat`
  is a faithful model except for floating-point rounding, which the spec
  itself treats as a tolerance issue;
* `JSON.stringify`-based deep equality of snapshots becomes structural
  (decidable) equality of the corresponding Lean values — for the fixed
  record schemas used by the engine the two coincide;
* JavaScript `Map` objects become insertion-ordered association lists with
  the exact `set` (overwrite-in-place, append-if-absent), `get` and `has`
  semantics (`mapSet`, `mapGet`, `mapHas` below);
* the one recursion in the source that is not structurally terminating
  (`getDescendants`) is embedded with an explicit fuel parameter
  (`getDescF`); divergence of the TypeScript original on a cyclic input
  corresponds to the fuel-indexed results never stabilising, and termination
  corresponds to stabilisation, which is proved for acyclic inputs.
-/

/-! ## Data model (`src/App.tsx` types `NodeData`, `EdgeData`, `CanvasState`) -/

/-- The closed set of node types (source: `type NodeType`). -/
inductive NodeType where
  | page
  | action
  | logic
  | entity
  | ui
  | external
  | note
  deriving DecidableEq

/-- The closed set of edge types (source: `type EdgeType`). -/

inductive EdgeType where
  | navigation
  | logic
  | data
  | system
  deriving DecidableEq

/-- An entity attribute (source: `interface StateVariable`). -/

structure StateVariable where
  id : String
  key : String
  value : String
  deriving DecidableEq

/-- A diagram node (source: `interface NodeData`).  Optional fields are
`Option`; an absent `locked` is falsy in the source, modelled as `false`.
The source field `variables` is spelt `vars` here because `variables` is a
reserved word in Lean. -/

structure NodeData where
  id : String
  type : NodeType
  x : Rat
  y : Rat
  width : Rat
  height : Rat
  title : String
  description : String
  parentId : Option String := none
  locked : Bool := false
  vars : Option (List StateVariable) := none
  docs : Option String := none
  deriving DecidableEq

/-- A diagram edge (source: `interface EdgeData`). -/

structure EdgeData where
  id : String
  sourceId : String
  targetId : String
  label : String
  type : EdgeType
  condition : Option String := none
  deriving DecidableEq

/-- A full snapshot of the diagram (source: `type CanvasState`). -/

structure CanvasState where
  nodes : List NodeData
  edges : List EdgeData
  deriving DecidableEq

/-! ## History Store (source: `useHistoryState`) -/

/-- The undo/redo state (source: the `useState` record inside
`useHistoryState`). -/

structure HistoryState where
  past : List CanvasState
  present : CanvasState
  future : List CanvasState
  deriving DecidableEq

/-- Committing a mutation (source: `setState` in `useHistoryState`,
lines 26–40).  The source compares `JSON.stringify(newPresent)` with
`JSON.stringify(currentState.present)`; for these record schemas that is
structural equality. -/

def setState (newStateFn : CanvasState → CanvasState) (s : HistoryState) : HistoryState :=
  let newPresent := newStateFn s.present
  if newPresent = s.present then s
  else { past := s.past ++ [s.present], present := newPresent, future := [] }

/-- Resetting the store (source: `resetState`, lines 42–48). -/

def resetState (newState : CanvasState) : HistoryState :=
  { past := [], present := newState, future := [] }

/-- Undo (source: `undo`, lines 50–61): no-op when `past` is empty, else the
last `past` entry becomes present and the old present is pushed to the front
of `future`. -/

def undo (s : HistoryState) : HistoryState :=
  match s.past.getLast? with
  | none => s
  | some previous =>
      { past := s.past.dropLast, present := previous, future := s.present :: s.future }

/-- Redo (source: `redo`, lines 63–74): no-op when `future` is empty, else
the first `future` entry becomes present and the old present is appended to
`past`. -/

def redo (s : HistoryState) : HistoryState :=
  match s.future with
  | [] => s
  | next :: rest =>
      { past := s.past ++ [s.present], present := next, future := rest }

/-- A tiny concrete snapshot used by witnesses. -/
def wNode : NodeData :=
  { id := "n1", type := NodeType.ui, x := 10, y := 20, width := 220, height := 100,
    title := "Login Form", description := "" }

/-- A concrete canvas with one node. -/

def wCanvas : CanvasState := { nodes := [wNode], edges := [] }

/-- A concrete history state sitting on `wCanvas`. -/

def wHist : HistoryState := { past := [], present := wCanvas, future := [] }

/-- A concrete mutation: move `n1` to the origin. -/

def wMove : CanvasState → CanvasState :=
  fun c => { c with nodes := c.nodes.map (fun n => { n with x := 0, y := 0 }) }

/-! ## JavaScript `Map` model

The diff engine and the drag state build JavaScript `Map` objects.  A `Map`
is an insertion-ordered key/value sequence: `set` overwrites in place when
the key is present and appends otherwise; `get` returns the value stored at
the key; `has` tests key presence.  We model a `Map` with `String` keys as an
association list whose keys are kept distinct by construction. -/

/-- JavaScript `Map.prototype.set`. -/
def mapSet {α : Type} (m : List (String × α)) (k : String) (v : α) : List (String × α) :=
  if m.any (fun e => decide (e.1 = k)) then m.map (fun e => if e.1 = k then (k, v) else e)
  else m ++ [(k, v)]

/-- JavaScript `Map.prototype.get` (`none` plays the role of `undefined`). -/

def mapGet {α : Type} (m : List (String × α)) (k : String) : Option α :=
  (m.find? (fun e => decide (e.1 = k))).map (fun e => e.2)

/-- JavaScript `Map.prototype.has`. -/

def mapHas {α : Type} (m : List (String × α)) (k : String) : Bool :=
  m.any (fun e => decide (e.1 = k))

/-- JavaScript `new Map(l.map(x => [key(x), x]))`: left fold of `set` over the
list. -/

def mapFromList {α : Type} (getId : α → String) (l : List α) : List (String × α) :=
  l.foldl (fun m x => mapSet m (getId x) x) []

/-! ## Diff Engine (source: `diffResult`, lines 221–261) -/

/-- Per-entity diff status (source: `type DiffStatus`). -/
inductive DiffStatus where
  | added
  | modified
  | deleted
  | unchanged
  deriving DecidableEq

/-- One side of the diff.  The source repeats this block verbatim, once for
nodes and once for edges (`diffResult`, lines 227–241 and 244–258): build
id-keyed maps of the reference (`diffingVersion`) and current entity lists,
walk the current map marking each entity `added` / `modified` / `unchanged`
(deep equality in the source is `JSON.stringify` comparison), then collect
the reference entities missing from the current map as ghosts and mark them
`deleted`. -/

def diffSide {α : Type} [DecidableEq α] (getId : α → String) (refL curL : List α) :
    List (String × DiffStatus) × List α :=
  let oldM := mapFromList getId refL
  let newM := mapFromList getId curL
  let status0 := newM.foldl (fun m p =>
      mapSet m p.1 (match mapGet oldM p.1 with
        | none => DiffStatus.added
        | some oldE => if p.2 ≠ oldE then DiffStatus.modified else DiffStatus.unchanged)) []
  let ghosts := refL.filter (fun x => !(mapHas newM (getId x)))
  let status := ghosts.foldl (fun m x => mapSet m (getId x) DiffStatus.deleted) status0
  (status, ghosts)

/-- The diff output (source: the record returned by the `diffResult` memo). -/

structure DiffResult where
  nodeStatus : List (String × DiffStatus)
  edgeStatus : List (String × DiffStatus)
  ghostNodes : List NodeData
  ghostEdges : List EdgeData

/-- The diff engine (source: `diffResult`, lines 221–261), applied to a
reference snapshot (`diffingVersion`) and the current snapshot. -/

def diffResult (diffingVersion current : CanvasState) : DiffResult :=
  let ns := diffSide (fun n => n.id) diffingVersion.nodes current.nodes
  let es := diffSide (fun e => e.id) diffingVersion.edges current.edges
  { nodeStatus := ns.1, edgeStatus := es.1, ghostNodes := ns.2, ghostEdges := es.2 }

/-- The status the diff engine computes for an entity of the current
snapshot: `added` when its id is absent from the reference map, `modified`
when present but not deeply equal, `unchanged` otherwise (source:
`diffResult`, lines 230–239 / 247–256). -/

def diffEntityStatus {α : Type} [DecidableEq α] (getId : α → String) (refL : List α)
    (x : α) : DiffStatus :=
  match mapGet (mapFromList getId refL) (getId x) with
  | none => DiffStatus.added
  | some oldE => if x ≠ oldE then DiffStatus.modified else DiffStatus.unchanged

/-- An edge used by concrete examples. -/
def wEdge : EdgeData :=
  { id := "e1", sourceId := "n1", targetId := "n2",
    label := "On Submit", type := EdgeType.logic }

/-- The spec's diff example: the reference contains node `n1` (as `wNode`)
and an edge, the current snapshot contains neither. -/

def wRefCanvas : CanvasState :=
  { nodes := [wNode], edges := [wEdge] }

/-! ## Hierarchy module (source: `getDescendants`, lines 97–100)

The source recursion
`getDescendants(id) = children(id) ++ children(id).flatMap(getDescendants)`
recurses on the same node list and therefore diverges on a cyclic `parentId`
relation.  `getDescF` is the fuel-indexed embedding of that recursion; on
acyclic inputs the results stabilise once the fuel reaches the node count
(proved below), and `getDescendants` is defined at that fuel. -/

/-- Fuel-indexed embedding of the source recursion. -/
def getDescF (fuel : Nat) (nodeId : String) (allNodes : List NodeData) : List String :=
  match fuel with
  | 0 => []
  | fuel + 1 =>
      let children := (allNodes.filter (fun n => decide (n.parentId = some nodeId))).map
        (fun n => n.id)
      children ++ children.flatMap (fun childId => getDescF fuel childId allNodes)

/-- The function `getDescendants` (source, lines 97–100), at the stabilising fuel. -/

def getDescendants (nodeId : String) (allNodes : List NodeData) : List String :=
  getDescF allNodes.length nodeId allNodes

/-- Chain relation `UpChain nodes k d a`: from `d` one reaches `a` in exactly `k` parent
steps through entries of `nodes` (`d`'s `parentId` chain reaches `a`). -/

inductive UpChain (nodes : List NodeData) : Nat → String → String → Prop where
  | single (n : NodeData) (hn : n ∈ nodes) (p : String) (hp : n.parentId = some p) :
      UpChain nodes 1 n.id p
  | snoc (k : Nat) (d : String) (n : NodeData) (hn : n ∈ nodes)
      (h : UpChain nodes k d n.id) (p : String) (hp : n.parentId = some p) :
      UpChain nodes (k + 1) d p

/-- Predicate: `d` is a transitive descendant of `root`: some parent chain from `d`
reaches `root`. -/

def IsDesc (nodes : List NodeData) (root d : String) : Prop :=
  ∃ k, UpChain nodes k d root

/-- The `parentId` relation is acyclic: no node is its own ancestor. -/

def Acyclic (nodes : List NodeData) : Prop :=
  ∀ x k, ¬ UpChain nodes k x x

/-- Updating a node with a partial-field spread (source:
`handleUpdateElement`, lines 525–534, `'node'` branch): the source merges
`{...n, ...data}`; an arbitrary partial-field record is modelled by a field
override function `upd`.  No cycle validation is performed. -/
def updateNode (i : String) (upd : NodeData → NodeData) (nodes : List NodeData) :
    List NodeData :=
  nodes.map (fun n => if n.id = i then upd n else n)

/-- A node `a` whose parent is `b`. -/

def cycNodeA : NodeData :=
  { id := "a", type := NodeType.ui, x := 0, y := 0, width := 100, height := 100,
    title := "A", description := "", parentId := some "b" }

/-- A node `b`, initially parentless. -/

def cycNodeB0 : NodeData :=
  { id := "b", type := NodeType.ui, x := 0, y := 0, width := 100, height := 100,
    title := "B", description := "" }

/-- An acyclic two-node list: `a` under `b`, `b` parentless. -/

def preCyclicNodes : List NodeData := [cycNodeA, cycNodeB0]

/-- The same two nodes after `b` is reparented under `a`: a `parentId`
2-cycle. -/

def cyclicNodes : List NodeData := [cycNodeA, { cycNodeB0 with parentId := some "a" }]

/-- The spec's cascade example: a `page` container. -/
def exPage : NodeData :=
  { id := "page", type := NodeType.page, x := 50, y := 50, width := 400, height := 450,
    title := "Page", description := "" }

/-- Child of `page`. -/

def exC1 : NodeData :=
  { id := "c1", type := NodeType.ui, x := 100, y := 150, width := 220, height := 100,
    title := "C1", description := "", parentId := some "page" }

/-- Child of `c1`. -/

def exC2 : NodeData :=
  { id := "c2", type := NodeType.action, x := 100, y := 280, width := 220, height := 80,
    title := "C2", description := "", parentId := some "c1" }

/-- An unrelated external node. -/

def exExt : NodeData :=
  { id := "ext", type := NodeType.external, x := 600, y := 150, width := 150, height := 150,
    title := "External", description := "" }

/-- The example node list: `page ← c1 ← c2`, plus `ext`. -/

def exNodes : List NodeData := [exPage, exC1, exC2, exExt]

/-- The spec's example edge `c1 → ext`. -/

def exEdgeC1Ext : EdgeData :=
  { id := "eC1Ext", sourceId := "c1", targetId := "ext", label := "flow",
    type := EdgeType.logic }

/-- The example snapshot. -/

def exState : CanvasState := { nodes := exNodes, edges := [exEdgeC1Ext] }

/-- The element kinds accepted by the delete handler. -/
inductive ElementKind where
  | node
  | edge
  deriving DecidableEq

/-- Deleting an element (source: `handleDeleteElement`, lines 536–552).  For
a node: compute the transitive descendants, then keep only nodes whose id is
outside the deleted id set and only edges with both endpoints outside it.
For an edge: drop the edge with the given id. -/

def handleDeleteElement (i : String) (kind : ElementKind) (prev : CanvasState) :
    CanvasState :=
  match kind with
  | ElementKind.node =>
      let descendantIds := getDescendants i prev.nodes
      let idsToDelete := i :: descendantIds
      { nodes := prev.nodes.filter (fun n => !(idsToDelete.contains n.id)),
        edges := prev.edges.filter (fun e =>
          !(idsToDelete.contains e.sourceId) && !(idsToDelete.contains e.targetId)) }
  | ElementKind.edge =>
      { prev with edges := prev.edges.filter (fun e => !(decide (e.id = i))) }

/-! ## Drag interaction (source: `DraggingState`, lines 80–87, and the
dragging branch of `handleCanvasMouseMove`, lines 444–462) -/

/-- The drag state frozen at drag start (source: `type DraggingState`): the
dragged node's id, the pointer offset inside it, its initial position, and
the frozen initial positions of all its descendants (a JavaScript `Map`,
modelled like the diff maps). -/
structure DraggingState where
  id : String
  offsetX : Rat
  offsetY : Rat
  initialX : Rat
  initialY : Rat
  descendantInitialPositions : List (String × (Rat × Rat))
  deriving DecidableEq

/-- One pointer-move step of an active drag (source: the `draggingNode`
branch of `handleCanvasMouseMove`, lines 444–462): the dragged node is placed
at the transformed pointer coordinates minus the grab offset, and every node
recorded in the frozen descendant map is placed at its frozen position
translated by the same delta. -/

def dragMove (d : DraggingState) (tx ty : Rat) (nodes : List NodeData) : List NodeData :=
  let newX := tx - d.offsetX
  let newY := ty - d.offsetY
  let dx := newX - d.initialX
  let dy := newY - d.initialY
  nodes.map (fun n =>
    if n.id = d.id then { n with x := newX, y := newY }
    else match mapGet d.descendantInitialPositions n.id with
      | some p => { n with x := p.1 + dx, y := p.2 + dy }
      | none => n)

/-- A concrete drag state over `wNode` (grabbed at its corner, no
descendants). -/
def wDrag : DraggingState :=
  { id := "n1", offsetX := 0, offsetY := 0, initialX := 10, initialY := 20,
    descendantInitialPositions := [("child", (30, 40))] }

/-! ## Viewport transform (source: `transform` state, `handleWheel`,
lines 572–585, and `getTransformedMouseCoords`, lines 263–272) -/

/-- The viewport transform (source: the `transform` state,
`{ scale, x, y }`). -/
structure Transform where
  scale : Rat
  x : Rat
  y : Rat
  deriving DecidableEq

/-- Screen-to-world conversion (source: `getTransformedMouseCoords`,
lines 263–272); `mouseX`/`mouseY` are the pointer coordinates relative to the
canvas origin. -/

def getTransformedMouseCoords (t : Transform) (mouseX mouseY : Rat) : Rat × Rat :=
  ((mouseX - t.x) / t.scale, (mouseY - t.y) / t.scale)

/-- Wheel zoom (source: `handleWheel`, lines 572–585): the scale moves by
`-deltaY * 0.001`, clamped to `[0.2, 3]` (written `1/5` and `3` as exact
rationals), and the translation is recomputed so the world point under the
pointer keeps its screen position. -/

def handleWheel (t : Transform) (mouseX mouseY deltaY : Rat) : Transform :=
  let scaleAmount := -deltaY * (1 / 1000)
  let newScale := min (max (1 / 5) (t.scale + scaleAmount)) 3
  let worldX := (mouseX - t.x) / t.scale
  let worldY := (mouseY - t.y) / t.scale
  { scale := newScale, x := mouseX - worldX * newScale, y := mouseY - worldY * newScale }

/-! ## Import (source: `handleImport`, lines 810–843) -/

/-- A saved version (source: `interface Version`).  The source stores an ISO
timestamp string and compares versions via `new Date(t).getTime()`; the
model stores that numeric time directly. -/
structure Version where
  id : String
  name : String
  timestamp : Int
  nodes : List NodeData
  edges : List EdgeData
  deriving DecidableEq

/-- The application state touched by import: the history store (undo/redo
stacks and present snapshot), the stored version list (`history` state) and
the active-version marker (`currentVersionId`).  Pure view state (selection,
diff overlay) is not modelled. -/

structure AppState where
  canvas : HistoryState
  history : List Version
  currentVersionId : Option String
  deriving DecidableEq

/-- The outcome of `JSON.parse` plus the shape checks of `handleImport`:
either the parse threw, or it produced a value whose `nodes` / `edges` /
`history` fields are each either an array of the right shape (`some`) or
missing / not an array (`none`).  A non-object parse result (`data` falsy)
behaves as all fields missing. -/

inductive ImportData where
  | parseFailure
  | parsed (nodesF : Option (List NodeData)) (edgesF : Option (List EdgeData))
      (historyF : Option (List Version))

/-- The version with the latest timestamp (source: line 820,
`[...data.history].sort((a, b) => time(b) - time(a))[0]`): sort descending by
timestamp (stable, as ECMAScript `sort` is) and take the head. -/

def latestVersion (hist : List Version) : Option Version :=
  (hist.mergeSort (fun a b => decide (b.timestamp ≤ a.timestamp))).head?

/-- The import handler (source: `handleImport`, lines 810–843).  The returned
`Bool` is `true` when a user-visible error was reported (`alert`), in which
case nothing else happened.  On success the history store is reset (not
undoable), the version list replaced (full bundle) or cleared (bare shape),
and the active-version marker set accordingly. -/

def handleImport (input : ImportData) (st : AppState) : AppState × Bool :=
  match input with
  | ImportData.parseFailure => (st, true)
  | ImportData.parsed nodesF edgesF historyF =>
      match nodesF, edgesF with
      | some ns, some es =>
          (match historyF with
           | some hist =>
               match latestVersion hist with
               | some v =>
                   ({ canvas := resetState { nodes := v.nodes, edges := v.edges },
                      history := hist, currentVersionId := some v.id }, false)
               | none =>
                   ({ canvas := resetState { nodes := [], edges := [] },
                      history := hist, currentVersionId := none }, false)
           | none =>
               ({ canvas := resetState { nodes := ns, edges := es },
                  history := [], currentVersionId := none }, false))
      | _, _ => (st, true)

/-- A concrete app state for the import witness. -/
def wApp : AppState := { canvas := wHist, history := [], currentVersionId := none }

/-! ## Drop / reparent (source: `handleDrop`, lines 309–331, and the
drop-target resolution in `handleCanvasMouseMove`, lines 465–482) -/

/-- The drop-target predicate (source: the condition of the `nodes.find`
call, lines 472–481): an unlocked `page` that is neither the dragged node nor
one of its descendants, and whose closed bounds contain the pointer (`>=` /
`<=`, boundary included). -/
def isDropTargetFor (dragId : String) (tx ty : Rat) (nodes : List NodeData)
    (node : NodeData) : Bool :=
  decide (node.type = NodeType.page) && !node.locked &&
  !(decide (node.id = dragId)) &&
  !((getDescendants dragId nodes).contains node.id) &&
  decide (node.x ≤ tx) && decide (tx ≤ node.x + node.width) &&
  decide (node.y ≤ ty) && decide (ty ≤ node.y + node.height)

/-- Drop-target resolution (source: lines 465–482): `null` when the dragged
node is missing or is itself a `page`; otherwise the **first** node in
node-list order that is an unlocked `page`, is not the dragged node or one of
its descendants, and whose closed bounds contain the pointer's world
coordinates (all comparisons are `>=` / `<=`, so boundary points count). -/
def resolveDropTarget (dragId : String) (tx ty : Rat) (nodes : List NodeData) :
    Option String :=
  match nodes.find? (fun n => decide (n.id = dragId)) with
  | none => none
  | some draggedNode =>
      if draggedNode.type = NodeType.page then none
      else
        (nodes.find? (isDropTargetFor dragId tx ty nodes)).map (fun n => n.id)

/-- The detach half of the drop commit (source: lines 316–325): if the
dragged node has a parent that exists and the pointer lies outside the
parent's bounds, clear `parentId`; otherwise leave the snapshot unchanged. -/

def handleDropDetach (dragId : String) (tx ty : Rat) (prev : CanvasState)
    (draggedNode : NodeData) : CanvasState :=
  match draggedNode.parentId with
  | none => prev
  | some pid =>
      match prev.nodes.find? (fun n => decide (n.id = pid)) with
      | none => prev
      | some parent =>
          if tx < parent.x ∨ tx > parent.x + parent.width ∨
             ty < parent.y ∨ ty > parent.y + parent.height then
            { prev with nodes := prev.nodes.map (fun n =>
                if n.id = dragId then { n with parentId := none } else n) }
          else prev

/-- The drop commit (source: `handleDrop`, lines 309–331): with a resolved
target and a non-`page` dragged node, set the dragged node's `parentId` to
the target; otherwise run the detach check. -/

def handleDrop (dragId : String) (dropTargetId : Option String) (tx ty : Rat)
    (prev : CanvasState) : CanvasState :=
  match prev.nodes.find? (fun n => decide (n.id = dragId)), dropTargetId with
  | some draggedNode, some tgt =>
      if draggedNode.type ≠ NodeType.page then
        { prev with nodes := prev.nodes.map (fun n =>
            if n.id = dragId then { n with parentId := some tgt } else n) }
      else handleDropDetach dragId tx ty prev draggedNode
  | some draggedNode, none => handleDropDetach dragId tx ty prev draggedNode
  | none, _ => prev

/-- The drop-target rule exactly as the claim words it, for comparison with
the source behaviour: the **topmost** unlocked page-type container whose
bounds **strictly** contain the pointer's world coordinates, excluding the
dragged node and its descendants.  Containers are all `page` nodes (render
depth 0) and the depth sort is stable, so the topmost-rendered match is the
last match in node-list order. -/
def specDropTarget (dragId : String) (tx ty : Rat) (nodes : List NodeData) :
    Option String :=
  ((nodes.filter (fun node =>
      decide (node.type = NodeType.page) && !node.locked &&
      !(decide (node.id = dragId)) &&
      !((getDescendants dragId nodes).contains node.id) &&
      decide (node.x < tx) && decide (tx < node.x + node.width) &&
      decide (node.y < ty) && decide (ty < node.y + node.height))).getLast?).map
      (fun n => n.id)

/-- Two overlapping unlocked pages: `p1` first in the node list. -/

def ceP1 : NodeData :=
  { id := "p1", type := NodeType.page, x := 0, y := 0, width := 300, height := 200,
    title := "P1", description := "" }

/-- The later page, rendered on top of `p1` where they overlap. -/

def ceP2 : NodeData :=
  { id := "p2", type := NodeType.page, x := -50, y := -50, width := 300, height := 200,
    title := "P2", description := "" }

/-- The dragged, parentless `ui` node. -/

def ceU : NodeData :=
  { id := "u", type := NodeType.ui, x := 10, y := 10, width := 50, height := 50,
    title := "U", description := "" }

/-- The counterexample snapshot. -/

def ceState : CanvasState := { nodes := [ceP1, ceP2, ceU], edges := [] }

/-! ## Drag start and Escape abort (source: `handleNodeMouseDown`,
lines 345–363, and the Escape branch of `handleKeyDown`, lines 855–869) -/

/-- Arming a drag on an already-selected node (source: `handleNodeMouseDown`,
lines 345–362): freeze the pointer offset, the node's initial position and
the positions of all its descendants.  The UI guards (node unlocked, not a
diff ghost, already selected) gate entry and are not part of the frozen
data. -/
def startDrag (nodeId : String) (tx ty : Rat) (nodes : List NodeData) :
    Option DraggingState :=
  match nodes.find? (fun n => decide (n.id = nodeId)) with
  | none => none
  | some node =>
      some { id := nodeId,
             offsetX := tx - node.x, offsetY := ty - node.y,
             initialX := node.x, initialY := node.y,
             descendantInitialPositions :=
               (nodes.filter (fun n => (getDescendants nodeId nodes).contains n.id)).map
                 (fun n => (n.id, (n.x, n.y))) }

/-- The Escape restore on the node list (source: the updater passed to
`setState` in the Escape branch, lines 857–866): put the dragged node and
every node in the frozen descendant map back at its frozen position. -/

def escapeRestoreNodes (d : DraggingState) (nodes : List NodeData) : List NodeData :=
  nodes.map (fun n =>
    if n.id = d.id then { n with x := d.initialX, y := d.initialY }
    else match mapGet d.descendantInitialPositions n.id with
      | some p => { n with x := p.1, y := p.2 }
      | none => n)

/-- The Escape restore as a snapshot updater (it is committed through
`setState`, source line 857). -/

def escapeRestore (d : DraggingState) (s : CanvasState) : CanvasState :=
  { s with nodes := escapeRestoreNodes d s.nodes }

/-- One drag pointer-move as a snapshot updater (it is committed through
`setState`, source line 450). -/

def dragMoveState (d : DraggingState) (m : Rat × Rat) (s : CanvasState) : CanvasState :=
  { s with nodes := dragMove d m.1 m.2 s.nodes }

/-- A whole sequence of drag pointer-moves, each committed through the
History Store exactly as the source does. -/

def applyDragMoves (d : DraggingState) (moves : List (Rat × Rat))
    (h : HistoryState) : HistoryState :=
  moves.foldl (fun hist m => setState (dragMoveState d m) hist) h

/-- A single parentless node at the origin. -/
def c7Node : NodeData :=
  { id := "a", type := NodeType.ui, x := 0, y := 0, width := 100, height := 100,
    title := "A", description := "" }

/-- The pre-drag snapshot. -/

def c7Canvas : CanvasState := { nodes := [c7Node], edges := [] }

/-- A redoable snapshot sitting in `future` before the drag. -/

def c7Alt : CanvasState := { nodes := [], edges := [] }

/-- A history state with a non-empty `future` before the drag. -/

def c7Hist : HistoryState := { past := [], present := c7Canvas, future := [c7Alt] }

/-- The drag state produced by grabbing `a` at its origin corner. -/

def c7Drag : DraggingState :=
  { id := "a", offsetX := 0, offsetY := 0, initialX := 0, initialY := 0,
    descendantInitialPositions := [] }

/-- The snapshot after the one pointer move of the counterexample drag. -/
def c7Moved : CanvasState := { nodes := [{ c7Node with x := 30, y := 40 }], edges := [] }

/-! ## Verified properties -/

/-- C1: for every history state and every committed mutation that changes the
present snapshot, `undo` immediately afterwards restores the prior present
(pushing the post-mutation present to the front of `future`), and `redo`
immediately after that restores the post-mutation present. -/
theorem undo_redo_roundtrip (s : HistoryState) (u : CanvasState → CanvasState)
    (h : u s.present ≠ s.present) :
    (undo (setState u s)).present = s.present ∧
    (undo (setState u s)).future = u s.present :: (setState u s).future ∧
    (redo (undo (setState u s))).present = u s.present := by
  have hset : setState u s =
      { past := s.past ++ [s.present], present := u s.present, future := [] } := by
    simp only [setState]
    rw [if_neg h]
  have hundo : undo (setState u s) =
      { past := s.past, present := s.present, future := [u s.present] } := by
    rw [hset]
    simp [undo, List.getLast?_concat, List.dropLast_concat]
  refine ⟨?_, ?_, ?_⟩
  · rw [hundo]
  · rw [hundo, hset]
  · rw [hundo]
    simp [redo]

/-- Witness for C1 at a concrete history state and mutation. -/
theorem undo_redo_roundtrip_witness :
    (undo (setState wMove wHist)).present = wHist.present ∧
    (undo (setState wMove wHist)).future = wMove wHist.present :: (setState wMove wHist).future ∧
    (redo (undo (setState wMove wHist))).present = wMove wHist.present :=
  undo_redo_roundtrip wHist wMove (by decide)

/-- C2: committing an updater whose result is structurally equal to the
present snapshot leaves the whole history state unchanged; otherwise the old
present is pushed onto `past`, the updater's result becomes present, and
`future` is cleared. -/

theorem setState_noop_or_push (s : HistoryState) (u : CanvasState → CanvasState) :
    (u s.present = s.present → setState u s = s) ∧
    (u s.present ≠ s.present →
      setState u s = { past := s.past ++ [s.present], present := u s.present, future := [] }) := by
  constructor
  · intro h
    simp only [setState]
    rw [if_pos h]
  · intro h
    simp only [setState]
    rw [if_neg h]

/-- Witness for C2: a no-op updater (the identity) leaves a concrete history
state unchanged, and a position change pushes onto `past` and clears a
non-empty `future`. -/

theorem setState_noop_or_push_witness :
    setState id { wHist with future := [wCanvas] } = { wHist with future := [wCanvas] } ∧
    setState wMove wHist =
      { past := wHist.past ++ [wHist.present], present := wMove wHist.present, future := [] } :=
  ⟨(setState_noop_or_push { wHist with future := [wCanvas] } id).1 rfl,
   (setState_noop_or_push wHist wMove).2 (by decide)⟩

theorem mapSet_eq_append {α : Type} (m : List (String × α)) (k : String) (v : α)
    (h : ∀ e ∈ m, e.1 ≠ k) : mapSet m k v = m ++ [(k, v)] := by
  have hany : m.any (fun e => decide (e.1 = k)) = false := by
    simp only [List.any_eq_false, decide_eq_true_eq]
    exact h
  simp [mapSet, hany]

theorem foldl_mapSet_eq {α β : Type} (key : α → String) (val : α → β) :
    ∀ (l : List α) (m : List (String × β)),
      (l.map key).Nodup → (∀ x ∈ l, ∀ e ∈ m, e.1 ≠ key x) →
      l.foldl (fun acc x => mapSet acc (key x) (val x)) m
        = m ++ l.map (fun x => (key x, val x)) := by
  intro l
  induction l with
  | nil => simp
  | cons x xs ih =>
      intro m hnd hdis
      rw [List.map_cons, List.nodup_cons] at hnd
      rw [List.foldl_cons,
        mapSet_eq_append m (key x) (val x) (fun e he => hdis x (by simp) e he),
        ih (m ++ [(key x, val x)]) hnd.2 ?_]
      · simp
      · intro y hy e he
        rcases List.mem_append.mp he with hm | hsingle
        · exact hdis y (List.mem_cons_of_mem x hy) e hm
        · have : e = (key x, val x) := by simpa using hsingle
          subst this
          intro hkey
          simp only at hkey
          exact hnd.1 (hkey ▸ List.mem_map_of_mem key hy)

theorem mapFromList_eq_of_nodup {α : Type} (getId : α → String) (l : List α)
    (h : (l.map getId).Nodup) :
    mapFromList getId l = l.map (fun x => (getId x, x)) := by
  simpa [mapFromList] using foldl_mapSet_eq getId (fun x => x) l [] h (by simp)

theorem mapGet_map_pair {α β : Type} (key : α → String) (val : α → β) (l : List α)
    (k : String) :
    mapGet (l.map (fun x => (key x, val x))) k
      = (l.find? (fun x => decide (key x = k))).map val := by
  induction l with
  | nil => rfl
  | cons x xs ih =>
      by_cases h : key x = k
      · simp [mapGet, List.find?_cons, h]
      · simpa [mapGet, List.find?_cons, h] using ih

theorem find?_key_self {α : Type} (key : α → String) (l : List α)
    (h : (l.map key).Nodup) (n : α) (hn : n ∈ l) :
    l.find? (fun x => decide (key x = key n)) = some n := by
  induction l with
  | nil => cases hn
  | cons x xs ih =>
      rw [List.map_cons, List.nodup_cons] at h
      rcases List.mem_cons.mp hn with rfl | hmem
      · simp [List.find?_cons]
      · have hne : key x ≠ key n := fun he => h.1 (he ▸ List.mem_map_of_mem key hmem)
        simp [List.find?_cons, hne, ih h.2 hmem]

theorem mem_id_map_of_id_eq {α : Type} (key : α → String) (l : List α) (n : α)
    (hn : n ∈ l) : key n ∈ l.map key :=
  List.mem_map_of_mem key hn

theorem mapGet_append {α : Type} (A B : List (String × α)) (k : String) :
    mapGet (A ++ B) k = (mapGet A k).or (mapGet B k) := by
  cases h : A.find? (fun e => decide (e.1 = k)) <;>
    simp [mapGet, List.find?_append, h]

theorem mapHas_map_pair {α β : Type} (key : α → String) (val : α → β) (l : List α)
    (k : String) :
    mapHas (l.map (fun x => (key x, val x))) k = l.any (fun x => decide (key x = k)) := by
  induction l with
  | nil => rfl
  | cons x xs ih => simp [mapHas, List.any_cons] at ih ⊢; rw [ih]

theorem mapGet_mapFromList {α : Type} (getId : α → String) (l : List α)
    (h : (l.map getId).Nodup) (k : String) :
    mapGet (mapFromList getId l) k = l.find? (fun o => decide (getId o = k)) := by
  rw [mapFromList_eq_of_nodup getId l h, mapGet_map_pair]
  cases l.find? (fun o => decide (getId o = k)) <;> rfl

theorem diffSide_snd {α : Type} [DecidableEq α] (getId : α → String) (refL curL : List α) :
    (diffSide getId refL curL).2
      = refL.filter (fun x => !(mapHas (mapFromList getId curL) (getId x))) := rfl

theorem foldl_mapSet_del {α : Type} (getId : α → String) (l : List α)
    (m : List (String × DiffStatus))
    (hnd : (l.map getId).Nodup) (hdis : ∀ x ∈ l, ∀ e ∈ m, e.1 ≠ getId x) :
    l.foldl (fun acc x => mapSet acc (getId x) DiffStatus.deleted) m
      = m ++ l.map (fun x => (getId x, DiffStatus.deleted)) :=
  foldl_mapSet_eq getId (fun _ => DiffStatus.deleted) l m hnd hdis

theorem diffSide_fst {α : Type} [DecidableEq α] (getId : α → String) (refL curL : List α)
    (href : (refL.map getId).Nodup) (hcur : (curL.map getId).Nodup) :
    (diffSide getId refL curL).1 =
      curL.map (fun x => (getId x, diffEntityStatus getId refL x))
        ++ (diffSide getId refL curL).2.map (fun x => (getId x, DiffStatus.deleted)) := by
  have hnew := mapFromList_eq_of_nodup getId curL hcur
  have hkeys : ((curL.map (fun x => (getId x, x))).map Prod.fst).Nodup := by
    rw [List.map_map]
    simpa using hcur
  have hstatus0 : (mapFromList getId curL).foldl (fun m p =>
      mapSet m p.1 (match mapGet (mapFromList getId refL) p.1 with
        | none => DiffStatus.added
        | some oldE => if p.2 ≠ oldE then DiffStatus.modified else DiffStatus.unchanged)) []
      = curL.map (fun x => (getId x, diffEntityStatus getId refL x)) := by
    rw [hnew]
    refine (foldl_mapSet_eq Prod.fst (fun p : String × α =>
        match mapGet (mapFromList getId refL) p.1 with
        | none => DiffStatus.added
        | some oldE => if p.2 ≠ oldE then DiffStatus.modified else DiffStatus.unchanged)
      (curL.map (fun x => (getId x, x))) [] hkeys (by simp)).trans ?_
    rw [List.nil_append, List.map_map]
    rfl
  have hgdis : ∀ y ∈ refL.filter (fun x => !(mapHas (mapFromList getId curL) (getId x))),
      ∀ e ∈ curL.map (fun x => (getId x, diffEntityStatus getId refL x)), e.1 ≠ getId y := by
    intro y hy e he
    rcases List.mem_filter.mp hy with ⟨-, hpred⟩
    have hhas : mapHas (mapFromList getId curL) (getId y) = false := by
      simpa using hpred
    rw [hnew, mapHas_map_pair] at hhas
    have hall := List.any_eq_false.mp hhas
    rcases List.mem_map.mp he with ⟨c, hc, rfl⟩
    intro h
    exact absurd (by simpa using h) (by simpa using hall c hc)
  have hgnd : ((refL.filter (fun x => !(mapHas (mapFromList getId curL) (getId x)))).map
      getId).Nodup :=
    List.Nodup.sublist ((List.filter_sublist refL).map getId) href
  show (refL.filter (fun x => !(mapHas (mapFromList getId curL) (getId x)))).foldl
      (fun m x => mapSet m (getId x) DiffStatus.deleted) _ = _
  rw [hstatus0, diffSide_snd]
  exact foldl_mapSet_del getId _ _ hgnd hgdis

theorem diffSide_cur_status {α : Type} [DecidableEq α] (getId : α → String)
    (refL curL : List α)
    (href : (refL.map getId).Nodup) (hcur : (curL.map getId).Nodup)
    (x : α) (hx : x ∈ curL) :
    mapGet (diffSide getId refL curL).1 (getId x)
      = some (diffEntityStatus getId refL x) := by
  rw [diffSide_fst getId refL curL href hcur, mapGet_append,
      mapGet_map_pair getId (diffEntityStatus getId refL) curL (getId x),
      find?_key_self getId curL hcur x hx]
  rfl

theorem diffSide_ghost_status {α : Type} [DecidableEq α] (getId : α → String)
    (refL curL : List α)
    (href : (refL.map getId).Nodup) (hcur : (curL.map getId).Nodup)
    (x : α) (hx : x ∈ refL)
    (habs : curL.find? (fun c => decide (getId c = getId x)) = none) :
    x ∈ (diffSide getId refL curL).2 ∧
    mapGet (diffSide getId refL curL).1 (getId x) = some DiffStatus.deleted := by
  have hall : ∀ c ∈ curL, ¬ (getId c = getId x) := by
    intro c hc
    simpa using List.find?_eq_none.mp habs c hc
  have hmem : x ∈ (diffSide getId refL curL).2 := by
    rw [diffSide_snd]
    refine List.mem_filter.mpr ⟨hx, ?_⟩
    rw [mapFromList_eq_of_nodup getId curL hcur, mapHas_map_pair]
    have : curL.any (fun c => decide (getId c = getId x)) = false :=
      List.any_eq_false.mpr (fun c hc => by simpa using hall c hc)
    rw [this]
    rfl
  refine ⟨hmem, ?_⟩
  rw [diffSide_fst getId refL curL href hcur, mapGet_append]
  have h1 : mapGet (curL.map (fun y => (getId y, diffEntityStatus getId refL y)))
      (getId x) = none := by
    rw [mapGet_map_pair]
    rw [List.find?_eq_none.mpr (fun c hc => by simpa using hall c hc)]
    rfl
  rw [h1]
  have hgnd : ((diffSide getId refL curL).2.map getId).Nodup := by
    rw [diffSide_snd]
    exact List.Nodup.sublist ((List.filter_sublist refL).map getId) href
  rw [mapGet_map_pair getId (fun _ => DiffStatus.deleted) _ (getId x),
      find?_key_self getId _ hgnd x hmem]
  rfl

/-- C3: the diff — computed identically and independently for nodes and for
edges — assigns `added` to every current entity whose id is absent from the
reference, `modified` to every current entity whose id is present but whose
record is not deeply equal, and `unchanged` otherwise; every reference entity
whose id is absent from the current snapshot lands in the corresponding
ghost list with status `deleted` (hence in neither the `added` nor the
`modified` classification).  The id-uniqueness snapshot invariant is
assumed. -/

theorem diffResult_correct (ref cur : CanvasState)
    (hrn : (ref.nodes.map (fun n => n.id)).Nodup)
    (hcn : (cur.nodes.map (fun n => n.id)).Nodup)
    (hre : (ref.edges.map (fun e => e.id)).Nodup)
    (hce : (cur.edges.map (fun e => e.id)).Nodup) :
    (∀ n ∈ cur.nodes,
      (ref.nodes.find? (fun o => decide (o.id = n.id)) = none →
        mapGet (diffResult ref cur).nodeStatus n.id = some DiffStatus.added) ∧
      (∀ o, ref.nodes.find? (fun o' => decide (o'.id = n.id)) = some o → n ≠ o →
        mapGet (diffResult ref cur).nodeStatus n.id = some DiffStatus.modified) ∧
      (∀ o, ref.nodes.find? (fun o' => decide (o'.id = n.id)) = some o → n = o →
        mapGet (diffResult ref cur).nodeStatus n.id = some DiffStatus.unchanged)) ∧
    (∀ n ∈ ref.nodes, cur.nodes.find? (fun c => decide (c.id = n.id)) = none →
      n ∈ (diffResult ref cur).ghostNodes ∧
      mapGet (diffResult ref cur).nodeStatus n.id = some DiffStatus.deleted ∧
      mapGet (diffResult ref cur).nodeStatus n.id ≠ some DiffStatus.added ∧
      mapGet (diffResult ref cur).nodeStatus n.id ≠ some DiffStatus.modified) ∧
    (∀ e ∈ cur.edges,
      (ref.edges.find? (fun o => decide (o.id = e.id)) = none →
        mapGet (diffResult ref cur).edgeStatus e.id = some DiffStatus.added) ∧
      (∀ o, ref.edges.find? (fun o' => decide (o'.id = e.id)) = some o → e ≠ o →
        mapGet (diffResult ref cur).edgeStatus e.id = some DiffStatus.modified) ∧
      (∀ o, ref.edges.find? (fun o' => decide (o'.id = e.id)) = some o → e = o →
        mapGet (diffResult ref cur).edgeStatus e.id = some DiffStatus.unchanged)) ∧
    (∀ e ∈ ref.edges, cur.edges.find? (fun c => decide (c.id = e.id)) = none →
      e ∈ (diffResult ref cur).ghostEdges ∧
      mapGet (diffResult ref cur).edgeStatus e.id = some DiffStatus.deleted ∧
      mapGet (diffResult ref cur).edgeStatus e.id ≠ some DiffStatus.added ∧
      mapGet (diffResult ref cur).edgeStatus e.id ≠ some DiffStatus.modified) := by
  refine ⟨?_, ?_, ?_, ?_⟩
  · intro n hn
    have hds : mapGet (diffResult ref cur).nodeStatus n.id
        = some (diffEntityStatus (fun m : NodeData => m.id) ref.nodes n) :=
      diffSide_cur_status (fun m : NodeData => m.id) ref.nodes cur.nodes hrn hcn n hn
    refine ⟨?_, ?_, ?_⟩
    · intro hfind
      rw [hds]
      unfold diffEntityStatus
      rw [mapGet_mapFromList _ _ hrn, hfind]
    · intro o hfind hne
      rw [hds]
      unfold diffEntityStatus
      rw [mapGet_mapFromList _ _ hrn, hfind]
      simp [hne]
    · intro o hfind heq
      rw [hds]
      unfold diffEntityStatus
      rw [mapGet_mapFromList _ _ hrn, hfind]
      simp [heq]
  · intro n hn habs
    have h := diffSide_ghost_status (fun m : NodeData => m.id) ref.nodes cur.nodes hrn hcn n hn habs
    have h2 : mapGet (diffResult ref cur).nodeStatus n.id = some DiffStatus.deleted := h.2
    exact ⟨h.1, h2, by rw [h2]; simp, by rw [h2]; simp⟩
  · intro e he
    have hds : mapGet (diffResult ref cur).edgeStatus e.id
        = some (diffEntityStatus (fun f : EdgeData => f.id) ref.edges e) :=
      diffSide_cur_status (fun f : EdgeData => f.id) ref.edges cur.edges hre hce e he
    refine ⟨?_, ?_, ?_⟩
    · intro hfind
      rw [hds]
      unfold diffEntityStatus
      rw [mapGet_mapFromList _ _ hre, hfind]
    · intro o hfind hne
      rw [hds]
      unfold diffEntityStatus
      rw [mapGet_mapFromList _ _ hre, hfind]
      simp [hne]
    · intro o hfind heq
      rw [hds]
      unfold diffEntityStatus
      rw [mapGet_mapFromList _ _ hre, hfind]
      simp [heq]
  · intro e he habs
    have h := diffSide_ghost_status (fun f : EdgeData => f.id) ref.edges cur.edges hre hce e he habs
    have h2 : mapGet (diffResult ref cur).edgeStatus e.id = some DiffStatus.deleted := h.2
    exact ⟨h.1, h2, by rw [h2]; simp, by rw [h2]; simp⟩

/-- Witness for C3 at concrete snapshots (reference has `n1`, current is
empty, so `n1` is a deleted ghost). -/
theorem diffResult_correct_witness :
    wNode ∈ (diffResult wRefCanvas { nodes := [], edges := [] }).ghostNodes ∧
    mapGet (diffResult wRefCanvas { nodes := [], edges := [] }).nodeStatus wNode.id
      = some DiffStatus.deleted ∧
    mapGet (diffResult wRefCanvas { nodes := [], edges := [] }).nodeStatus wNode.id
      ≠ some DiffStatus.added ∧
    mapGet (diffResult wRefCanvas { nodes := [], edges := [] }).nodeStatus wNode.id
      ≠ some DiffStatus.modified :=
  (diffResult_correct wRefCanvas { nodes := [], edges := [] }
    (by decide) (by decide) (by decide) (by decide)).2.1 wNode (by decide) (by decide)

theorem upChain_pos {nodes : List NodeData} {k : Nat} {d a : String}
    (h : UpChain nodes k d a) : 1 ≤ k := by
  cases h <;> omega

theorem mem_getDescF_iff (nodes : List NodeData) :
    ∀ (fuel : Nat) (root d : String),
      d ∈ getDescF fuel root nodes ↔
        ∃ k, 1 ≤ k ∧ k ≤ fuel ∧ UpChain nodes k d root := by
  intro fuel
  induction fuel with
  | zero =>
      intro root d
      constructor
      · intro h
        exact absurd h (List.not_mem_nil d)
      · rintro ⟨k, hk1, hk2, -⟩
        omega
  | succ fuel ih =>
      intro root d
      constructor
      · intro hd
        simp only [getDescF, List.mem_append] at hd
        rcases hd with hchild | hrec
        · rcases List.mem_map.mp hchild with ⟨n, hn, rfl⟩
          rcases List.mem_filter.mp hn with ⟨hmem, hpar⟩
          exact ⟨1, le_refl 1, by omega,
            UpChain.single n hmem root (by simpa using hpar)⟩
        · rcases List.mem_flatMap.mp hrec with ⟨c, hc, hd2⟩
          rcases List.mem_map.mp hc with ⟨n, hn, rfl⟩
          rcases List.mem_filter.mp hn with ⟨hmem, hpar⟩
          rcases (ih n.id d).mp hd2 with ⟨k, hk1, hk2, hch⟩
          exact ⟨k + 1, by omega, by omega,
            UpChain.snoc k d n hmem hch root (by simpa using hpar)⟩
      · rintro ⟨k, hk1, hk2, hch⟩
        cases hch with
        | single n hn p hp =>
            simp only [getDescF, List.mem_append]
            left
            exact List.mem_map.mpr ⟨n, List.mem_filter.mpr ⟨hn, by simpa using hp⟩, rfl⟩
        | snoc k' d n hn h p hp =>
            simp only [getDescF, List.mem_append]
            right
            refine List.mem_flatMap.mpr ⟨n.id,
              List.mem_map.mpr ⟨n, List.mem_filter.mpr ⟨hn, by simpa using hp⟩, rfl⟩, ?_⟩
            exact (ih n.id d).mpr ⟨k', upChain_pos h, by omega, h⟩

/-- An acyclic `parentId` relation admits a rank function that strictly
decreases from parent to child and is bounded by the node count: the rank of
`x` is the number of distinct node ids whose parent chain reaches `x`. -/

theorem exists_rank_of_acyclic (nodes : List NodeData) (hA : Acyclic nodes) :
    ∃ rank : String → Nat,
      (∀ n ∈ nodes, ∀ p, n.parentId = some p → rank n.id < rank p) ∧
      (∀ x, rank x ≤ nodes.length) := by
  classical
  refine ⟨fun x => ((nodes.map (fun n => n.id)).toFinset.filter
      (fun y => ∃ k, UpChain nodes k y x)).card, ?_, ?_⟩
  · intro n hn p hp
    have hsub : (nodes.map (fun m => m.id)).toFinset.filter
        (fun y => ∃ k, UpChain nodes k y n.id)
        ⊆ (nodes.map (fun m => m.id)).toFinset.filter
        (fun y => ∃ k, UpChain nodes k y p) := by
      intro y hy
      rcases Finset.mem_filter.mp hy with ⟨hmem, k, hch⟩
      exact Finset.mem_filter.mpr ⟨hmem, k + 1, UpChain.snoc k y n hn hch p hp⟩
    have hmemp : n.id ∈ (nodes.map (fun m => m.id)).toFinset.filter
        (fun y => ∃ k, UpChain nodes k y p) :=
      Finset.mem_filter.mpr ⟨List.mem_toFinset.mpr (List.mem_map_of_mem _ hn),
        ⟨1, UpChain.single n hn p hp⟩⟩
    have hnotmem : n.id ∉ (nodes.map (fun m => m.id)).toFinset.filter
        (fun y => ∃ k, UpChain nodes k y n.id) := by
      intro hm
      rcases Finset.mem_filter.mp hm with ⟨-, k, hch⟩
      exact hA n.id k hch
    exact Finset.card_lt_card ((Finset.ssubset_iff_of_subset hsub).mpr
      ⟨n.id, hmemp, hnotmem⟩)
  · intro x
    calc ((nodes.map (fun n => n.id)).toFinset.filter
          (fun y => ∃ k, UpChain nodes k y x)).card
        ≤ (nodes.map (fun n => n.id)).toFinset.card := Finset.card_filter_le _ _
      _ ≤ (nodes.map (fun n => n.id)).length := (nodes.map (fun n => n.id)).toFinset_card_le
      _ = nodes.length := List.length_map _ _

theorem upChain_le_rank (nodes : List NodeData) (rank : String → Nat)
    (hrank : ∀ n ∈ nodes, ∀ p, n.parentId = some p → rank n.id < rank p) :
    ∀ {k : Nat} {d a : String}, UpChain nodes k d a → k ≤ rank a := by
  intro k d a h
  induction h with
  | single n hn p hp =>
      have := hrank n hn p hp
      omega
  | snoc k d n hn h p hp ih =>
      have := hrank n hn p hp
      omega

theorem flatMap_congr_mem {α β : Type} (l : List α) (f g : α → List β)
    (h : ∀ a ∈ l, f a = g a) : l.flatMap f = l.flatMap g := by
  induction l with
  | nil => rfl
  | cons x xs ih =>
      simp only [List.flatMap_cons]
      rw [h x (by simp), ih (fun a ha => h a (by simp [ha]))]

theorem getDescF_stable_of_rank (nodes : List NodeData) (rank : String → Nat)
    (hrank : ∀ n ∈ nodes, ∀ p, n.parentId = some p → rank n.id < rank p) :
    ∀ (m : Nat) (x : String), rank x ≤ m →
      ∀ f1 f2, rank x ≤ f1 → rank x ≤ f2 →
        getDescF f1 x nodes = getDescF f2 x nodes := by
  intro m
  induction m with
  | zero =>
      intro x hx f1 f2 h1 h2
      have hchild : nodes.filter (fun n => decide (n.parentId = some x)) = [] := by
        rw [List.filter_eq_nil_iff]
        intro n hn hpar
        have := hrank n hn x (by simpa using hpar)
        omega
      have hzero : ∀ f, getDescF f x nodes = [] := by
        intro f
        cases f with
        | zero => rfl
        | succ f => simp [getDescF, hchild]
      rw [hzero f1, hzero f2]
  | succ m ih =>
      intro x hx f1 f2 h1 h2
      rcases Nat.lt_or_ge (rank x) (m + 1) with hlt | hge
      · exact ih x (by omega) f1 f2 h1 h2
      · have hx1 : rank x = m + 1 := by omega
        obtain ⟨g1, rfl⟩ : ∃ g1, f1 = g1 + 1 := ⟨f1 - 1, by omega⟩
        obtain ⟨g2, rfl⟩ : ∃ g2, f2 = g2 + 1 := ⟨f2 - 1, by omega⟩
        simp only [getDescF]
        congr 1
        apply flatMap_congr_mem
        intro c hc
        rcases List.mem_map.mp hc with ⟨n, hn, rfl⟩
        rcases List.mem_filter.mp hn with ⟨hmem, hpar⟩
        have hlt : rank n.id < rank x := hrank n hmem x (by simpa using hpar)
        exact ih n.id (by omega) g1 g2 (by omega) (by omega)

theorem getDescendants_stable (nodes : List NodeData) (root : String) (hA : Acyclic nodes) :
    ∀ fuel, nodes.length ≤ fuel → getDescF fuel root nodes = getDescendants root nodes := by
  obtain ⟨rank, hrank, hbound⟩ := exists_rank_of_acyclic nodes hA
  intro fuel hf
  exact getDescF_stable_of_rank nodes rank hrank (rank root) root (le_refl _) fuel nodes.length
    (le_trans (hbound root) hf) (hbound root)

theorem mem_getDescendants_iff (nodes : List NodeData) (root : String) (hA : Acyclic nodes)
    (d : String) : d ∈ getDescendants root nodes ↔ IsDesc nodes root d := by
  obtain ⟨rank, hrank, hbound⟩ := exists_rank_of_acyclic nodes hA
  constructor
  · intro hd
    rcases (mem_getDescF_iff nodes nodes.length root d).mp hd with ⟨k, -, -, hch⟩
    exact ⟨k, hch⟩
  · rintro ⟨k, hch⟩
    exact (mem_getDescF_iff nodes nodes.length root d).mpr
      ⟨k, upChain_pos hch,
        le_trans (upChain_le_rank nodes rank hrank hch) (hbound root), hch⟩

theorem cyclic_getDescF_length :
    ∀ fuel, (getDescF fuel "a" cyclicNodes).length = fuel ∧
      (getDescF fuel "b" cyclicNodes).length = fuel := by
  intro fuel
  induction fuel with
  | zero => exact ⟨rfl, rfl⟩
  | succ fuel ih =>
      have hcha : (cyclicNodes.filter (fun n => decide (n.parentId = some "a"))).map
          (fun n => n.id) = ["b"] := by decide
      have hchb : (cyclicNodes.filter (fun n => decide (n.parentId = some "b"))).map
          (fun n => n.id) = ["a"] := by decide
      constructor
      · simp only [getDescF, hcha]
        simp [ih.2]
      · simp only [getDescF, hchb]
        simp [ih.1]

/-- C10: on every node list whose `parentId` relation is acyclic (no node is
its own ancestor), the `getDescendants` recursion terminates — its
fuel-indexed approximations coincide from the node count onwards — and
returns exactly the ids whose parent chain reaches the given node; the
acyclicity precondition is genuine, since on a concrete cyclic two-node list
the approximations never stabilise, and such a list is produced from an
acyclic one by a single `updateNode` call (the source applies arbitrary
partial fields, including `parentId`, with no cycle validation). -/

theorem getDescendants_correct_on_acyclic :
    (∀ (nodes : List NodeData) (root : String), Acyclic nodes →
      (∀ fuel, nodes.length ≤ fuel → getDescF fuel root nodes = getDescendants root nodes) ∧
      (∀ d, d ∈ getDescendants root nodes ↔ IsDesc nodes root d)) ∧
    (∀ fuel, getDescF (fuel + 1) "a" cyclicNodes ≠ getDescF fuel "a" cyclicNodes) ∧
    updateNode "b" (fun n => { n with parentId := some "a" }) preCyclicNodes = cyclicNodes := by
  refine ⟨?_, ?_, ?_⟩
  · intro nodes root hA
    exact ⟨getDescendants_stable nodes root hA, mem_getDescendants_iff nodes root hA⟩
  · intro fuel h
    have h1 := (cyclic_getDescF_length (fuel + 1)).1
    rw [h, (cyclic_getDescF_length fuel).1] at h1
    omega
  · decide

theorem exNodes_upChain : ∀ (k : Nat) (d a : String), UpChain exNodes k d a →
    (d = "c1" ∧ a = "page") ∨ (d = "c2" ∧ a = "c1") ∨ (d = "c2" ∧ a = "page") := by
  intro k d a h
  induction h with
  | single n hn p hp =>
      simp only [exNodes, List.mem_cons, List.not_mem_nil, or_false] at hn
      rcases hn with rfl | rfl | rfl | rfl
      · exact absurd hp (by simp [exPage])
      · have hp' : p = "page" := by
          have := hp
          simp only [exC1, Option.some.injEq] at this
          exact this.symm
        subst hp'
        exact Or.inl ⟨rfl, rfl⟩
      · have hp' : p = "c1" := by
          have := hp
          simp only [exC2, Option.some.injEq] at this
          exact this.symm
        subst hp'
        exact Or.inr (Or.inl ⟨rfl, rfl⟩)
      · exact absurd hp (by simp [exExt])
  | snoc k d n hn h p hp ih =>
      simp only [exNodes, List.mem_cons, List.not_mem_nil, or_false] at hn
      rcases hn with rfl | rfl | rfl | rfl
      · exact absurd hp (by simp [exPage])
      · have hp' : p = "page" := by
          have := hp
          simp only [exC1, Option.some.injEq] at this
          exact this.symm
        subst hp'
        rcases ih with ⟨h1, h2⟩ | ⟨h1, h2⟩ | ⟨h1, h2⟩ <;> simp [exC1] at h2 <;> subst h1
        · exact Or.inr (Or.inr ⟨rfl, rfl⟩)
      · have hp' : p = "c1" := by
          have := hp
          simp only [exC2, Option.some.injEq] at this
          exact this.symm
        subst hp'
        rcases ih with ⟨h1, h2⟩ | ⟨h1, h2⟩ | ⟨h1, h2⟩ <;> simp [exC2] at h2
      · exact absurd hp (by simp [exExt])

theorem exNodes_acyclic : Acyclic exNodes := by
  intro x k h
  rcases exNodes_upChain k x x h with ⟨h1, h2⟩ | ⟨h1, h2⟩ | ⟨h1, h2⟩ <;>
    subst h1 <;> exact absurd h2 (by decide)

/-- Witness for C10, applying the acyclic branch to the concrete acyclic
example list. -/

theorem getDescendants_correct_on_acyclic_witness :
    getDescF 5 "page" exNodes = getDescendants "page" exNodes ∧
    ("c2" ∈ getDescendants "page" exNodes ↔ IsDesc exNodes "page" "c2") :=
  ⟨(getDescendants_correct_on_acyclic.1 exNodes "page" exNodes_acyclic).1 5 (by decide),
   (getDescendants_correct_on_acyclic.1 exNodes "page" exNodes_acyclic).2 "c2"⟩

/-- C4: on a snapshot with an acyclic `parentId` relation, deleting node `i`
removes exactly `i` and its transitive descendants from the node list and
exactly the edges with an endpoint in the deleted id set; every other node
and edge remains. -/
theorem deleteElement_cascade (s : CanvasState) (i : String) (hA : Acyclic s.nodes) :
    (∀ n, n ∈ (handleDeleteElement i ElementKind.node s).nodes ↔
      n ∈ s.nodes ∧ ¬ (n.id = i ∨ IsDesc s.nodes i n.id)) ∧
    (∀ e, e ∈ (handleDeleteElement i ElementKind.node s).edges ↔
      e ∈ s.edges ∧ ¬ (e.sourceId = i ∨ IsDesc s.nodes i e.sourceId)
                  ∧ ¬ (e.targetId = i ∨ IsDesc s.nodes i e.targetId)) := by
  have hmem : ∀ x, (x ∈ i :: getDescendants i s.nodes) ↔ (x = i ∨ IsDesc s.nodes i x) := by
    intro x
    simp only [List.mem_cons]
    constructor
    · rintro (rfl | hd)
      · exact Or.inl rfl
      · exact Or.inr ((mem_getDescendants_iff s.nodes i hA x).mp hd)
    · rintro (rfl | hd)
      · exact Or.inl rfl
      · exact Or.inr ((mem_getDescendants_iff s.nodes i hA x).mpr hd)
  constructor
  · intro n
    show n ∈ s.nodes.filter
        (fun n => !((i :: getDescendants i s.nodes).contains n.id)) ↔ _
    rw [List.mem_filter]
    simp only [Bool.not_eq_eq_eq_not, Bool.not_true, List.contains_eq_any_beq,
      List.any_eq_false, beq_iff_eq]
    constructor
    · rintro ⟨hn, hno⟩
      refine ⟨hn, fun hcontra => ?_⟩
      exact hno n.id ((hmem n.id).mpr hcontra) rfl
    · rintro ⟨hn, hno⟩
      refine ⟨hn, fun x hx hxe => ?_⟩
      subst hxe
      exact hno ((hmem n.id).mp hx)
  · intro e
    show e ∈ s.edges.filter
        (fun e => !((i :: getDescendants i s.nodes).contains e.sourceId)
          && !((i :: getDescendants i s.nodes).contains e.targetId)) ↔ _
    rw [List.mem_filter]
    simp only [Bool.and_eq_true, Bool.not_eq_eq_eq_not, Bool.not_true,
      List.contains_eq_any_beq, List.any_eq_false, beq_iff_eq]
    constructor
    · rintro ⟨he, hs, ht⟩
      exact ⟨he, fun hc => hs e.sourceId ((hmem e.sourceId).mpr hc) rfl,
        fun hc => ht e.targetId ((hmem e.targetId).mpr hc) rfl⟩
    · rintro ⟨he, hs, ht⟩
      refine ⟨he, ?_, ?_⟩
      · intro x hx hxe
        subst hxe
        exact hs ((hmem e.sourceId).mp hx)
      · intro x hx hxe
        subst hxe
        exact ht ((hmem e.targetId).mp hx)

/-- Witness for C4: deleting `page` from the spec's example snapshot. -/

theorem deleteElement_cascade_witness :
    (exC2 ∈ (handleDeleteElement "page" ElementKind.node exState).nodes ↔
      exC2 ∈ exState.nodes ∧
        ¬ (exC2.id = "page" ∨ IsDesc exState.nodes "page" exC2.id)) ∧
    (exEdgeC1Ext ∈ (handleDeleteElement "page" ElementKind.node exState).edges ↔
      exEdgeC1Ext ∈ exState.edges ∧
        ¬ (exEdgeC1Ext.sourceId = "page" ∨ IsDesc exState.nodes "page" exEdgeC1Ext.sourceId) ∧
        ¬ (exEdgeC1Ext.targetId = "page" ∨ IsDesc exState.nodes "page" exEdgeC1Ext.targetId)) :=
  ⟨(deleteElement_cascade exState "page" exNodes_acyclic).1 exC2,
   (deleteElement_cascade exState "page" exNodes_acyclic).2 exEdgeC1Ext⟩

theorem map_congr_mem {α β : Type} (l : List α) (f g : α → β)
    (h : ∀ a ∈ l, f a = g a) : l.map f = l.map g := by
  induction l with
  | nil => rfl
  | cons x xs ih =>
      simp only [List.map_cons]
      rw [h x (by simp), ih (fun a ha => h a (by simp [ha]))]

/-- A later drag move overwrites an earlier one: each move recomputes every
tracked position from the frozen drag-start data only. -/

theorem dragMove_dragMove (d : DraggingState) (tx ty tx' ty' : Rat)
    (nodes : List NodeData) :
    dragMove d tx ty (dragMove d tx' ty' nodes) = dragMove d tx ty nodes := by
  simp only [dragMove, List.map_map]
  apply map_congr_mem
  intro n hn
  by_cases hid : n.id = d.id
  · simp [hid]
  · cases hpos : mapGet d.descendantInitialPositions n.id with
    | none => simp [hid, hpos]
    | some p => simp [hid, hpos]

theorem dragMove_foldl (d : DraggingState) (moves : List (Rat × Rat)) :
    ∀ (tx ty : Rat) (nodes : List NodeData),
      dragMove d tx ty (moves.foldl (fun ns m => dragMove d m.1 m.2 ns) nodes)
        = dragMove d tx ty nodes := by
  induction moves with
  | nil =>
      intro tx ty nodes
      rfl
  | cons m ms ih =>
      intro tx ty nodes
      rw [List.foldl_cons, ih, dragMove_dragMove]

/-- C5: after any sequence of pointer moves whose final move places the
dragged node at its drag-start position translated by `(dx, dy)`, every node
recorded in the frozen descendant map sits at its frozen position translated
by exactly `(dx, dy)`, and every other node is untouched by the drag moves —
regardless of the intermediate pointer positions. -/

theorem drag_rigid_translation (d : DraggingState) (nodes : List NodeData)
    (moves : List (Rat × Rat)) (tx ty dx dy : Rat)
    (hx : tx - d.offsetX = d.initialX + dx) (hy : ty - d.offsetY = d.initialY + dy) :
    dragMove d tx ty (moves.foldl (fun ns m => dragMove d m.1 m.2 ns) nodes)
      = nodes.map (fun n =>
          if n.id = d.id then { n with x := d.initialX + dx, y := d.initialY + dy }
          else match mapGet d.descendantInitialPositions n.id with
            | some p => { n with x := p.1 + dx, y := p.2 + dy }
            | none => n) := by
  have hdx : tx - d.offsetX - d.initialX = dx := by
    rw [hx]
    ring
  have hdy : ty - d.offsetY - d.initialY = dy := by
    rw [hy]
    ring
  rw [dragMove_foldl]
  simp only [dragMove]
  apply map_congr_mem
  intro n hn
  by_cases hid : n.id = d.id
  · rw [if_pos hid, if_pos hid, hx, hy]
  · rw [if_neg hid, if_neg hid]
    cases hpos : mapGet d.descendantInitialPositions n.id with
    | none => rfl
    | some p => rw [hdx, hdy]

/-- Witness for C5: a drag of `wNode` by `(7, 5)` after an intermediate move
to `(100, 100)`. -/
theorem drag_rigid_translation_witness :
    dragMove wDrag 17 25 ([((100 : Rat), (100 : Rat))].foldl
        (fun ns m => dragMove wDrag m.1 m.2 ns) wCanvas.nodes)
      = wCanvas.nodes.map (fun n =>
          if n.id = wDrag.id then
            { n with x := wDrag.initialX + 7, y := wDrag.initialY + 5 }
          else match mapGet wDrag.descendantInitialPositions n.id with
            | some p => { n with x := p.1 + 7, y := p.2 + 5 }
            | none => n) :=
  drag_rigid_translation wDrag wCanvas.nodes [((100 : Rat), (100 : Rat))] 17 25 7 5
    (by simp [wDrag]; norm_num) (by simp [wDrag]; norm_num)

/-- C9: for every transform whose scale lies in the clamp range `[0.2, 3]`
and every wheel event at a screen point, the updated transform maps that
point to exactly the same world coordinate as the old transform (exact
rational arithmetic). -/
theorem wheel_zoom_preserves_pointer_world (t : Transform) (mouseX mouseY deltaY : Rat)
    (h1 : 1 / 5 ≤ t.scale) (h2 : t.scale ≤ 3) :
    getTransformedMouseCoords (handleWheel t mouseX mouseY deltaY) mouseX mouseY
      = getTransformedMouseCoords t mouseX mouseY := by
  have hpos : 0 < t.scale := lt_of_lt_of_le (by norm_num) h1
  have hns : (0 : Rat) < min (max (1 / 5) (t.scale + -deltaY * (1 / 1000))) 3 := by
    apply lt_min
    · exact lt_of_lt_of_le (by norm_num) (le_max_left _ _)
    · norm_num
  have hns' : min (max (1 / 5) (t.scale + -deltaY * (1 / 1000))) 3 ≠ 0 := ne_of_gt hns
  have hts : t.scale ≠ 0 := ne_of_gt hpos
  simp only [handleWheel, getTransformedMouseCoords, Prod.mk.injEq]
  constructor
  · field_simp
    ring
  · field_simp
    ring

/-- Witness for C9 at a concrete transform and wheel event. -/

theorem wheel_zoom_preserves_pointer_world_witness :
    getTransformedMouseCoords
        (handleWheel { scale := 1, x := 0, y := 0 } 100 50 100) 100 50
      = getTransformedMouseCoords ({ scale := 1, x := 0, y := 0 } : Transform) 100 50 :=
  wheel_zoom_preserves_pointer_world { scale := 1, x := 0, y := 0 } 100 50 100
    (by norm_num) (by norm_num)

/-- C8: an import whose input fails JSON parsing, or whose parsed value lacks
an array-valued `nodes` or `edges` field, reports a user-visible error and
leaves the nodes, edges, undo/redo stacks and stored version list exactly as
they were. -/
theorem import_failure_preserves_state (input : ImportData) (st : AppState)
    (hbad : input = ImportData.parseFailure ∨
      ∃ nf ef hf, input = ImportData.parsed nf ef hf ∧ (nf = none ∨ ef = none)) :
    handleImport input st = (st, true) := by
  rcases hbad with rfl | ⟨nf, ef, hf, rfl, hne⟩
  · rfl
  · rcases hne with rfl | rfl
    · rfl
    · cases nf <;> rfl

/-- Witness for C8: a parse failure and a parsed value with a missing `nodes`
array both leave a concrete app state untouched and report an error. -/
theorem import_failure_preserves_state_witness :
    handleImport ImportData.parseFailure wApp = (wApp, true) ∧
    handleImport (ImportData.parsed none (some []) none) wApp = (wApp, true) :=
  ⟨import_failure_preserves_state ImportData.parseFailure wApp (Or.inl rfl),
   import_failure_preserves_state (ImportData.parsed none (some []) none) wApp
     (Or.inr ⟨none, some [], none, rfl, Or.inl rfl⟩)⟩

theorem handleDrop_target_eq (dragId tgt : String) (tx ty : Rat) (prev : CanvasState)
    (dn : NodeData)
    (hfind : prev.nodes.find? (fun n => decide (n.id = dragId)) = some dn) :
    handleDrop dragId (some tgt) tx ty prev =
      if dn.type ≠ NodeType.page then
        { prev with nodes := prev.nodes.map (fun n =>
            if n.id = dragId then { n with parentId := some tgt } else n) }
      else handleDropDetach dragId tx ty prev dn := by
  unfold handleDrop
  rw [hfind]

theorem handleDrop_none_eq (dragId : String) (tx ty : Rat) (prev : CanvasState)
    (dn : NodeData)
    (hfind : prev.nodes.find? (fun n => decide (n.id = dragId)) = some dn) :
    handleDrop dragId none tx ty prev = handleDropDetach dragId tx ty prev dn := by
  unfold handleDrop
  rw [hfind]

theorem handleDropDetach_parent_eq (dragId : String) (tx ty : Rat) (prev : CanvasState)
    (dn : NodeData) (pid : String) (parent : NodeData)
    (hp : dn.parentId = some pid)
    (hf : prev.nodes.find? (fun n => decide (n.id = pid)) = some parent) :
    handleDropDetach dragId tx ty prev dn =
      if tx < parent.x ∨ tx > parent.x + parent.width ∨
         ty < parent.y ∨ ty > parent.y + parent.height then
        { prev with nodes := prev.nodes.map (fun n =>
            if n.id = dragId then { n with parentId := none } else n) }
      else prev := by
  unfold handleDropDetach
  simp only [hp, hf]

theorem resolveDropTarget_some_eq (dragId : String) (tx ty : Rat)
    (nodes : List NodeData) (dn : NodeData)
    (hfind : nodes.find? (fun n => decide (n.id = dragId)) = some dn)
    (hnp : ¬ dn.type = NodeType.page) :
    resolveDropTarget dragId tx ty nodes =
      (nodes.find? (isDropTargetFor dragId tx ty nodes)).map (fun n => n.id) := by
  unfold resolveDropTarget
  simp only [hfind]
  rw [if_neg hnp]

/-- C6 (amended): with the dragged node found in the snapshot, the drop
commit behaves as follows.  If a drop target resolves, it is an unlocked
`page` — not the dragged node or a descendant — whose **closed** bounds
contain the pointer (boundary included), the dragged node is not a `page`,
and the commit sets its `parentId` to the target; with no resolved target,
the commit clears `parentId` exactly when the node has a parent that exists
in the snapshot and the pointer lies outside the parent's closed bounds, and
otherwise changes nothing.  Edges are never touched. -/

theorem drop_commit_parent_update (prev : CanvasState) (dragId : String) (tx ty : Rat)
    (dn : NodeData)
    (hfind : prev.nodes.find? (fun n => decide (n.id = dragId)) = some dn) :
    (∀ t, resolveDropTarget dragId tx ty prev.nodes = some t →
      dn.type ≠ NodeType.page ∧
      ∃ nd, nd ∈ prev.nodes ∧ nd.id = t ∧ nd.type = NodeType.page ∧
        nd.locked = false ∧ nd.id ≠ dragId ∧
        (getDescendants dragId prev.nodes).contains nd.id = false ∧
        nd.x ≤ tx ∧ tx ≤ nd.x + nd.width ∧ nd.y ≤ ty ∧ ty ≤ nd.y + nd.height) ∧
    (∀ t, resolveDropTarget dragId tx ty prev.nodes = some t →
      ∃ nd pre post, prev.nodes = pre ++ nd :: post ∧ nd.id = t ∧
        isDropTargetFor dragId tx ty prev.nodes nd = true ∧
        ∀ m ∈ pre, isDropTargetFor dragId tx ty prev.nodes m = false) ∧
    (∀ t, resolveDropTarget dragId tx ty prev.nodes = some t →
      handleDrop dragId (some t) tx ty prev
        = { prev with nodes := prev.nodes.map (fun n =>
            if n.id = dragId then { n with parentId := some t } else n) }) ∧
    (resolveDropTarget dragId tx ty prev.nodes = none →
      (dn.parentId = none → handleDrop dragId none tx ty prev = prev) ∧
      (∀ pid, dn.parentId = some pid →
        prev.nodes.find? (fun n => decide (n.id = pid)) = none →
        handleDrop dragId none tx ty prev = prev) ∧
      (∀ pid parent, dn.parentId = some pid →
        prev.nodes.find? (fun n => decide (n.id = pid)) = some parent →
        ((tx < parent.x ∨ tx > parent.x + parent.width ∨
          ty < parent.y ∨ ty > parent.y + parent.height) →
          handleDrop dragId none tx ty prev
            = { prev with nodes := prev.nodes.map (fun n =>
                if n.id = dragId then { n with parentId := none } else n) }) ∧
        (¬ (tx < parent.x ∨ tx > parent.x + parent.width ∨
            ty < parent.y ∨ ty > parent.y + parent.height) →
          handleDrop dragId none tx ty prev = prev))) ∧
    (∀ dt, (handleDrop dragId dt tx ty prev).edges = prev.edges) := by
  have hsome : ∀ t, resolveDropTarget dragId tx ty prev.nodes = some t →
      dn.type ≠ NodeType.page := by
    intro t hres
    intro hpage
    unfold resolveDropTarget at hres
    simp only [hfind] at hres
    rw [if_pos hpage] at hres
    cases hres
  refine ⟨?_, ?_, ?_, ?_, ?_⟩
  · intro t hres
    have hnp := hsome t hres
    refine ⟨hnp, ?_⟩
    rw [resolveDropTarget_some_eq dragId tx ty prev.nodes dn hfind hnp] at hres
    cases hf2 : prev.nodes.find? (isDropTargetFor dragId tx ty prev.nodes) with
    | none =>
        rw [hf2] at hres
        cases hres
    | some nd =>
        rw [hf2] at hres
        have hid : nd.id = t := by
          simpa using hres
        have hmem := List.mem_of_find?_eq_some hf2
        have hpred := List.find?_some hf2
        simp only [isDropTargetFor, Bool.and_eq_true, decide_eq_true_eq,
          Bool.not_eq_true', decide_eq_false_iff_not] at hpred
        exact ⟨nd, hmem, hid, hpred.1.1.1.1.1.1.1, hpred.1.1.1.1.1.1.2,
          hpred.1.1.1.1.1.2, hpred.1.1.1.1.2, hpred.1.1.1.2, hpred.1.1.2,
          hpred.1.2, hpred.2⟩
  · intro t hres
    have hnp := hsome t hres
    rw [resolveDropTarget_some_eq dragId tx ty prev.nodes dn hfind hnp] at hres
    cases hf2 : prev.nodes.find? (isDropTargetFor dragId tx ty prev.nodes) with
    | none =>
        rw [hf2] at hres
        cases hres
    | some nd =>
        rw [hf2] at hres
        have hid : nd.id = t := by
          simpa using hres
        rcases List.find?_eq_some.mp hf2 with ⟨-, pre, post, hsplit, hpre⟩
        refine ⟨nd, pre, post, hsplit, hid, List.find?_some hf2, ?_⟩
        intro m hm
        simpa using hpre m hm
  · intro t hres
    have hnp := hsome t hres
    rw [handleDrop_target_eq dragId t tx ty prev dn hfind, if_pos hnp]
  · intro hres
    refine ⟨?_, ?_, ?_⟩
    · intro hp
      rw [handleDrop_none_eq dragId tx ty prev dn hfind]
      unfold handleDropDetach
      simp only [hp]
    · intro pid hp hf
      rw [handleDrop_none_eq dragId tx ty prev dn hfind]
      unfold handleDropDetach
      simp only [hp, hf]
    · intro pid parent hp hf
      rw [handleDrop_none_eq dragId tx ty prev dn hfind,
        handleDropDetach_parent_eq dragId tx ty prev dn pid parent hp hf]
      constructor
      · intro hout
        rw [if_pos hout]
      · intro hout
        rw [if_neg hout]
  · intro dt
    have hdetach : ∀ d, (handleDropDetach dragId tx ty prev d).edges = prev.edges := by
      intro d
      cases hp : d.parentId with
      | none =>
          have heq : handleDropDetach dragId tx ty prev d = prev := by
            unfold handleDropDetach
            simp only [hp]
          rw [heq]
      | some pid =>
          cases hf : prev.nodes.find? (fun n => decide (n.id = pid)) with
          | none =>
              have heq : handleDropDetach dragId tx ty prev d = prev := by
                unfold handleDropDetach
                simp only [hp, hf]
              rw [heq]
          | some parent =>
              rw [handleDropDetach_parent_eq dragId tx ty prev d pid parent hp hf]
              by_cases hout : tx < parent.x ∨ tx > parent.x + parent.width ∨
                  ty < parent.y ∨ ty > parent.y + parent.height
              · rw [if_pos hout]
              · rw [if_neg hout]
    cases dt with
    | none =>
        rw [handleDrop_none_eq dragId tx ty prev dn hfind]
        exact hdetach dn
    | some t =>
        rw [handleDrop_target_eq dragId t tx ty prev dn hfind]
        by_cases hnp : dn.type ≠ NodeType.page
        · rw [if_pos hnp]
        · rw [if_neg hnp]
          exact hdetach dn

theorem decide_none_eq_some {α : Type} [DecidableEq α] (a : α) :
    decide ((none : Option α) = some a) = false := by simp

theorem no_parent_getDescF (nodes : List NodeData) (h : ∀ n ∈ nodes, n.parentId = none) :
    ∀ (fuel : Nat) (i : String), getDescF fuel i nodes = [] := by
  intro fuel i
  cases fuel with
  | zero => rfl
  | succ fuel =>
      have hchild : nodes.filter (fun n => decide (n.parentId = some i)) = [] := by
        rw [List.filter_eq_nil_iff]
        intro n hn
        simp [h n hn]
      simp [getDescF, hchild]

theorem ceNoParents : ∀ n ∈ ceState.nodes, n.parentId = none := by
  intro n hn
  simp only [ceState, List.mem_cons, List.not_mem_nil, or_false] at hn
  rcases hn with rfl | rfl | rfl <;> rfl

theorem ceDescNil : getDescendants "u" ceState.nodes = [] :=
  no_parent_getDescF ceState.nodes ceNoParents _ _

theorem ceFind : ceState.nodes.find? (fun n => decide (n.id = "u")) = some ceU := by
  decide

theorem ceP1Target : isDropTargetFor "u" 0 100 ceState.nodes ceP1 = true := by
  unfold isDropTargetFor
  rw [ceDescNil]
  simp [ceP1,
    (show ((0 : Rat) ≤ 0) by norm_num), (show ((0 : Rat) ≤ 0 + 300) by norm_num),
    (show ((0 : Rat) ≤ 100) by norm_num), (show ((100 : Rat) ≤ 0 + 200) by norm_num),
    (show ((100 : Rat) ≤ 200) by norm_num), (show ((0 : Rat) ≤ 300) by norm_num)]

theorem ceResolve : resolveDropTarget "u" 0 100 ceState.nodes = some "p1" := by
  rw [resolveDropTarget_some_eq "u" 0 100 ceState.nodes ceU ceFind (by decide)]
  have hfound : ceState.nodes.find? (isDropTargetFor "u" 0 100 ceState.nodes)
      = some ceP1 := by
    show List.find? _ (ceP1 :: [ceP2, ceU]) = some ceP1
    rw [List.find?_cons_of_pos _ ceP1Target]
  rw [hfound]
  rfl

theorem ceSpec : specDropTarget "u" 0 100 ceState.nodes = some "p2" := by
  unfold specDropTarget
  rw [ceDescNil]
  simp [ceState, ceP1, ceP2, ceU, List.filter_cons,
    (show ¬((0 : Rat) < 0) by norm_num),
    (show ((-50 : Rat) < 0) by norm_num), (show ((0 : Rat) < -50 + 300) by norm_num),
    (show ((-50 : Rat) < 100) by norm_num), (show ((100 : Rat) < -50 + 200) by norm_num)]

/-- C6 counterexample: dropping `u` at world point `(0, 100)` — on the left
boundary of `p1` and strictly inside the topmost page `p2`.  The claim's rule
(topmost, strict containment) resolves `p2`, but the code resolves `p1` (the
first list match, boundary included) and commits `parentId := "p1"`, so the
claim as stated is false at this input. -/

theorem drop_commit_parent_update_counterexample :
    specDropTarget "u" 0 100 ceState.nodes = some "p2" ∧
    resolveDropTarget "u" 0 100 ceState.nodes = some "p1" ∧
    (handleDrop "u" (resolveDropTarget "u" 0 100 ceState.nodes) 0 100 ceState).nodes.find?
        (fun n => decide (n.id = "u"))
      = some { ceU with parentId := some "p1" } ∧
    ({ ceU with parentId := some "p1" } : NodeData).parentId ≠ some "p2" := by
  refine ⟨ceSpec, ceResolve, ?_, by simp⟩
  rw [ceResolve, handleDrop_target_eq "u" "p1" 0 100 ceState ceU ceFind,
    if_pos (by decide)]
  decide

/-- Witness for the amended C6 at the counterexample snapshot: the resolved
target is `p1` and the commit reparents `u` under it. -/

theorem drop_commit_parent_update_witness :
    handleDrop "u" (some "p1") 0 100 ceState
      = { ceState with nodes := ceState.nodes.map (fun n =>
          if n.id = "u" then { n with parentId := some "p1" } else n) } :=
  (drop_commit_parent_update ceState "u" 0 100 ceU ceFind).2.2.1 "p1" ceResolve

theorem setState_present (u : CanvasState → CanvasState) (s : HistoryState) :
    (setState u s).present = u s.present := by
  by_cases h : u s.present = s.present
  · simp [setState, h]
  · simp [setState, h]

theorem applyDragMoves_present (d : DraggingState) (moves : List (Rat × Rat)) :
    ∀ h : HistoryState, (applyDragMoves d moves h).present
      = { nodes := moves.foldl (fun ns m => dragMove d m.1 m.2 ns) h.present.nodes,
          edges := h.present.edges } := by
  induction moves with
  | nil =>
      intro h
      rfl
  | cons m ms ih =>
      intro h
      show (applyDragMoves d ms (setState (dragMoveState d m) h)).present = _
      rw [ih, setState_present]
      rw [List.foldl_cons]
      rfl

theorem escapeRestoreNodes_dragMove (d : DraggingState) (tx ty : Rat)
    (nodes : List NodeData) :
    escapeRestoreNodes d (dragMove d tx ty nodes) = escapeRestoreNodes d nodes := by
  simp only [escapeRestoreNodes, dragMove, List.map_map]
  apply map_congr_mem
  intro n hn
  by_cases hid : n.id = d.id
  · simp [hid]
  · cases hpos : mapGet d.descendantInitialPositions n.id with
    | none => simp [hid, hpos]
    | some p => simp [hid, hpos]

theorem escapeRestoreNodes_foldl (d : DraggingState) (moves : List (Rat × Rat)) :
    ∀ nodes : List NodeData,
      escapeRestoreNodes d (moves.foldl (fun ns m => dragMove d m.1 m.2 ns) nodes)
        = escapeRestoreNodes d nodes := by
  induction moves with
  | nil =>
      intro nodes
      rfl
  | cons m ms ih =>
      intro nodes
      rw [List.foldl_cons, ih, escapeRestoreNodes_dragMove]

theorem escapeRestoreNodes_id_of_startDrag (nodes : List NodeData) (nodeId : String)
    (tx ty : Rat) (d : DraggingState)
    (hstart : startDrag nodeId tx ty nodes = some d)
    (hnd : (nodes.map (fun n => n.id)).Nodup) :
    escapeRestoreNodes d nodes = nodes := by
  cases hfind : nodes.find? (fun n => decide (n.id = nodeId)) with
  | none =>
      unfold startDrag at hstart
      rw [hfind] at hstart
      cases hstart
  | some node =>
      unfold startDrag at hstart
      simp only [hfind] at hstart
      have hd := Option.some.inj hstart
      subst hd
      have hnodeId : node.id = nodeId := by
        simpa using List.find?_some hfind
      have hnodeMem : node ∈ nodes := List.mem_of_find?_eq_some hfind
      have hinj := List.inj_on_of_nodup_map hnd
      unfold escapeRestoreNodes
      refine (map_congr_mem nodes _ id ?_).trans (List.map_id nodes)
      intro n hn
      show (if n.id = nodeId then { n with x := node.x, y := node.y }
        else match mapGet ((nodes.filter
            (fun m => (getDescendants nodeId nodes).contains m.id)).map
            (fun m => (m.id, (m.x, m.y)))) n.id with
          | some p => { n with x := p.1, y := p.2 }
          | none => n) = n
      by_cases hid : n.id = nodeId
      · have hne : n = node := hinj hn hnodeMem (by rw [hid, hnodeId])
        subst hne
        rw [if_pos hid]
      · rw [if_neg hid]
        rw [mapGet_map_pair (fun m : NodeData => m.id) (fun m => (m.x, m.y))]
        cases hq : (nodes.filter
            (fun m => (getDescendants nodeId nodes).contains m.id)).find?
            (fun m => decide (m.id = n.id)) with
        | none => rfl
        | some q =>
            have hqid : q.id = n.id := by
              simpa using List.find?_some hq
            have hqmem : q ∈ nodes :=
              (List.mem_filter.mp (List.mem_of_find?_eq_some hq)).1
            have hqn : q = n := hinj hqmem hn hqid
            subst hqn
            rfl

/-- C7 (amended): aborting a drag with Escape restores the present snapshot
to the pre-drag snapshot: the Escape branch commits the restore updater
through `setState`, and after any sequence of committed drag moves the
restored present deep-equals the snapshot at drag start.  (The history
stacks, however, are **not** restored — see the counterexample — because
every effective pointer-move during the drag itself committed a history
entry and the restore commits one more when positions changed.) -/

theorem escape_restores_present (h0 : HistoryState) (nodeId : String) (tx0 ty0 : Rat)
    (d : DraggingState) (moves : List (Rat × Rat))
    (hstart : startDrag nodeId tx0 ty0 h0.present.nodes = some d)
    (hnd : (h0.present.nodes.map (fun n => n.id)).Nodup) :
    (setState (escapeRestore d) (applyDragMoves d moves h0)).present = h0.present := by
  rw [setState_present, applyDragMoves_present]
  simp only [escapeRestore]
  rw [escapeRestoreNodes_foldl,
    escapeRestoreNodes_id_of_startDrag h0.present.nodes nodeId tx0 ty0 d hstart hnd]

theorem c7NoParents : ∀ n ∈ c7Canvas.nodes, n.parentId = none := by
  intro n hn
  simp only [c7Canvas, List.mem_cons, List.not_mem_nil, or_false] at hn
  rcases hn with rfl
  rfl

theorem c7DescNil : getDescendants "a" c7Canvas.nodes = [] :=
  no_parent_getDescF c7Canvas.nodes c7NoParents _ _

theorem c7Start : startDrag "a" 0 0 c7Hist.present.nodes = some c7Drag := by
  unfold startDrag
  have hfind : c7Hist.present.nodes.find? (fun n => decide (n.id = "a"))
      = some c7Node := by decide
  simp only [hfind]
  have hdesc : getDescendants "a" c7Hist.present.nodes = [] := c7DescNil
  rw [hdesc]
  simp [c7Drag, c7Node, c7Hist, c7Canvas,
    (show (0 : Rat) - 0 = 0 by norm_num)]

theorem c7MovedNodes : dragMove c7Drag 30 40 c7Canvas.nodes
    = [{ c7Node with x := 30, y := 40 }] := by
  simp [dragMove, c7Drag, c7Canvas, c7Node, mapGet,
    (show (30 : Rat) - 0 = 30 by norm_num), (show (40 : Rat) - 0 = 40 by norm_num)]

theorem c7AfterMove : applyDragMoves c7Drag [((30 : Rat), (40 : Rat))] c7Hist
    = { past := [c7Canvas], present := c7Moved, future := [] } := by
  show setState (dragMoveState c7Drag ((30 : Rat), (40 : Rat))) c7Hist = _
  have hupd : dragMoveState c7Drag ((30 : Rat), (40 : Rat)) c7Hist.present = c7Moved := by
    unfold dragMoveState
    show ({ c7Canvas with nodes := dragMove c7Drag 30 40 c7Canvas.nodes } : CanvasState)
      = c7Moved
    rw [c7MovedNodes]
    rfl
  have hne : dragMoveState c7Drag ((30 : Rat), (40 : Rat)) c7Hist.present
      ≠ c7Hist.present := by
    rw [hupd]
    decide
  simp only [setState]
  rw [if_neg hne, hupd]
  rfl

theorem c7Restore : escapeRestore c7Drag c7Moved = c7Canvas := by decide

/-- C7 counterexample: a drag of `a` by one effective pointer move, then
Escape.  The restore does return the present snapshot to the pre-drag
snapshot, but the pointer move and the restore each committed a history
entry: `past` grew by two snapshots and the pre-drag `future` entry was
discarded, so the claim that the stacks are "the same as if the aborted drag
had not happened" is false at this input. -/

theorem escape_abort_history_counterexample :
    (setState (escapeRestore c7Drag)
        (applyDragMoves c7Drag [((30 : Rat), (40 : Rat))] c7Hist)).present
      = c7Hist.present ∧
    (setState (escapeRestore c7Drag)
        (applyDragMoves c7Drag [((30 : Rat), (40 : Rat))] c7Hist)).past
      ≠ c7Hist.past ∧
    (setState (escapeRestore c7Drag)
        (applyDragMoves c7Drag [((30 : Rat), (40 : Rat))] c7Hist)).future
      ≠ c7Hist.future ∧
    startDrag "a" 0 0 c7Hist.present.nodes = some c7Drag := by
  have hfinal : setState (escapeRestore c7Drag)
      (applyDragMoves c7Drag [((30 : Rat), (40 : Rat))] c7Hist)
      = { past := [c7Canvas, c7Moved], present := c7Canvas, future := [] } := by
    rw [c7AfterMove]
    have hne : escapeRestore c7Drag c7Moved ≠ c7Moved := by
      rw [c7Restore]
      decide
    simp only [setState]
    rw [if_neg hne, c7Restore]
    rfl
  rw [hfinal]
  exact ⟨rfl, by decide, by decide, c7Start⟩

/-- Witness for the amended C7 at the counterexample drag: Escape after the
move restores the pre-drag present snapshot. -/

theorem escape_restores_present_witness :
    (setState (escapeRestore c7Drag)
        (applyDragMoves c7Drag [((30 : Rat), (40 : Rat))] c7Hist)).present
      = c7Hist.present :=
  escape_restores_present c7Hist "a" 0 0 c7Drag [((30 : Rat), (40 : Rat))]
    c7Start (by decide)
